import Mathlib

/-!
Verification of the BB84-KEM session core of the repository
(`src/netsquid/t5.py` and its near-identical parameterized variants).

The development shallowly embeds:
* the basis codec `bases_to_bytes` / `bytes_to_bases` (t5.py lines 73-83),
* the XOR keystream used by `Kyber.encrypt` / `Kyber.decrypt`
  (t5.py lines 52-71); the KEM itself (liboqs) is an external collaborator
  and is modelled by its interface contract: an encapsulation produces a
  ciphertext `ct` and shared secret `ss`, and decapsulation satisfies
  `decap ct = ss`,
* the KEM handshake message order (t5.py lines 131-138 and 178-191),
* the sequence-numbered send/ACK/retry session loop of `AliceProtocol.run`
  and `BobProtocol.run` together with `run_bb84_kem`
  (t5.py lines 119-237).

The discrete-event simulator (netsquid) is likewise external: the session
model keeps the classical channels lossless and FIFO (the code attaches no
loss model to them), makes quantum loss explicit through a per-send drop
oracle, and works in the timing regime of the code's parameters
(`TIMEOUT` huge compared to channel delays): an ACK emitted in response to
an attempt is delivered before that attempt's timer fires, and the timer
fires whenever no ACK is forthcoming.  A qubit is represented by its
preparation data (bit, basis); measuring it in the same basis
deterministically returns the bit (H∘H = id), measuring in the other basis
returns an externally supplied random bit.
-/

/-- The two BB84 bases as the source writes them: the character `'X'`
(diagonal, the code applies an H gate for it) and `'Z'` (rectilinear). -/
inductive QBasis where
  | X : QBasis
  | Z : QBasis
deriving DecidableEq

/-- One character of `bit_string` in `bases_to_bytes` (t5.py line 75):
`'0' if base == 'X' else '1'`, with `'0'` rendered as `false`. -/
def basisBit (b : QBasis) : Bool :=
  match b with
  | QBasis.X => false
  | QBasis.Z => true

/-- Source `int(bit_string[i:i+8], 2)` (t5.py line 78): a chunk of bit characters
read as a binary numeral, most significant first. -/
def bitsToByte (bits : List Bool) : Nat :=
  bits.foldl (fun acc b => 2 * acc + (if b then 1 else 0)) 0

/-- The slicing `range(0, len(bit_string), 8)` of t5.py line 78: cut a bit
string into consecutive chunks of 8 (the last chunk may be shorter). -/
def chunks8 : List Bool → List (List Bool)
  | [] => []
  | a :: b :: c :: d :: e :: f :: g :: h :: rest => [a, b, c, d, e, f, g, h] :: chunks8 rest
  | l => [l]

/-- Source `bases_to_bytes` (t5.py lines 73-78): map each basis to a bit
character, left-justify with `'0'` up to a multiple of 8, and read each
8-character chunk as one byte. -/
def bases_to_bytes (bases : List QBasis) : List Nat :=
  let bits := bases.map basisBit
  let padded := bits ++ List.replicate ((bits.length + 7) / 8 * 8 - bits.length) false
  (chunks8 padded).map bitsToByte

/-- Python's 08b formatting of a byte (t5.py line 82), for a byte value (< 256): its eight
binary digits, most significant first. -/
def byteBits (b : Nat) : List Bool :=
  [b.testBit 7, b.testBit 6, b.testBit 5, b.testBit 4,
   b.testBit 3, b.testBit 2, b.testBit 1, b.testBit 0]

/-- Source `bytes_to_bases` (t5.py lines 80-83): spell every byte out as eight bit
characters, truncate to `length`, and map `'0'` back to `'X'`, `'1'` to
`'Z'`. -/
def bytes_to_bases (byte_data : List Nat) (length : Nat) : List QBasis :=
  (((byte_data.map byteBits).flatten).take length).map fun bit =>
    if bit then QBasis.Z else QBasis.X

/-- The XOR loop shared by `Kyber.encrypt` and `Kyber.decrypt`
(t5.py lines 59-61 and 68-70), from position `i` on:
`byte ^ key_bytes[i % len(key_bytes)]`. -/
def ksFrom (secret : List Nat) : Nat → List Nat → List Nat
  | _, [] => []
  | i, b :: rest => (b ^^^ secret.getD (i % secret.length) 0) :: ksFrom secret (i + 1) rest

/-- The keystream application: byte-wise XOR of `data[i]` with
`secret[i mod len(secret)]` (the body of `Kyber.encrypt`/`Kyber.decrypt`,
t5.py lines 59-61 and 68-70). -/
def apply_keystream (data secret : List Nat) : List Nat :=
  ksFrom secret 0 data

/-- Source `Kyber.encrypt` (t5.py lines 52-62) once the external encapsulation
has produced ciphertext `ct` and shared secret `ss`: returns the XOR-ed
plaintext together with the KEM ciphertext. -/
def Kyber.encrypt (ss ct plaintext : List Nat) : List Nat × List Nat :=
  (apply_keystream plaintext ss, ct)

/-- Source `Kyber.decrypt` (t5.py lines 64-71): recover the shared secret by
decapsulating `encap_key` (external `decap`), then XOR. -/
def Kyber.decrypt (decap : List Nat → List Nat) (ciphertext encap_key : List Nat) : List Nat :=
  apply_keystream ciphertext (decap encap_key)

/-- The two classical handshake messages, tagged by what they carry. -/
inductive HandshakeMsg where
  | encBases (payload : List Nat) : HandshakeMsg
  | cipher (payload : List Nat) : HandshakeMsg
deriving DecidableEq

/-- Raw byte payload of a handshake message. -/
def HandshakeMsg.payload : HandshakeMsg → List Nat
  | HandshakeMsg.encBases p => p
  | HandshakeMsg.cipher p => p

/-- Whether a handshake message is the KEM ciphertext. -/
def HandshakeMsg.isCipher : HandshakeMsg → Bool
  | HandshakeMsg.encBases _ => false
  | HandshakeMsg.cipher _ => true

/-- The Initiator's two handshake sends, in source order (t5.py lines
131-138): `tx_output(Message(encrypted_bases))` first, then
`tx_output(Message(encap_key))`. -/
def aliceHandshakeMsgs (bases : List QBasis) (ss ct : List Nat) : List HandshakeMsg :=
  [HandshakeMsg.encBases (Kyber.encrypt ss ct (bases_to_bytes bases)).1,
   HandshakeMsg.cipher (Kyber.encrypt ss ct (bases_to_bytes bases)).2]

/-- The Responder's handshake receive (t5.py lines 178-191): consume the
first classical message as the encrypted bases and the second as the
encapsulated key, then decrypt and unpack.  Blocks (`none`) if fewer than
two messages are available. -/
def bobHandshake (decap : List Nat → List Nat) (msgs : List (List Nat)) (num_bits : Nat) :
    Option (List QBasis) :=
  match msgs with
  | m0 :: m1 :: _ => some (bytes_to_bases (Kyber.decrypt decap m0 m1) num_bits)
  | _ => none

example : bases_to_bytes [QBasis.X] = [0] := by decide
example : bases_to_bytes [QBasis.Z] = [128] := by decide
example : bases_to_bytes [QBasis.X, QBasis.Z, QBasis.Z] = [96] := by decide
example : bytes_to_bases [96] 3 = [QBasis.X, QBasis.Z, QBasis.Z] := by decide
example : apply_keystream [1, 2, 3] [5, 6] = [4, 4, 6] := by decide
example : apply_keystream (apply_keystream [1, 2, 3] [5, 6]) [5, 6] = [1, 2, 3] := by decide

/-! ### Codec lemmas -/

/-- A list that is neither empty nor has eight heads is shorter than 8. -/
lemma length_lt_eight_of_no_eight (l : List Bool)
    (h2 : ∀ (a b c d e f g h : Bool) (rest : List Bool),
      l = a :: b :: c :: d :: e :: f :: g :: h :: rest → False) :
    l.length < 8 := by
  rcases l with _ | ⟨a, _ | ⟨b, _ | ⟨c, _ | ⟨d, _ | ⟨e, _ | ⟨f, _ | ⟨g, _ | ⟨i, rest⟩⟩⟩⟩⟩⟩⟩⟩
  all_goals first
    | (exfalso; exact h2 _ _ _ _ _ _ _ _ _ rfl)
    | simp

/-- Reading a full 8-bit chunk as a byte and spelling it back out is the
identity. -/
lemma byteBits_bitsToByte (a b c d e f g h : Bool) :
    byteBits (bitsToByte [a, b, c, d, e, f, g, h]) = [a, b, c, d, e, f, g, h] := by
  revert a b c d e f g h
  decide

/-- On bit strings whose length is a multiple of 8, re-expanding every
packed byte restores the bit string. -/
lemma flatten_chunks8 (l : List Bool) (h : l.length % 8 = 0) :
    ((chunks8 l).map fun c => byteBits (bitsToByte c)).flatten = l := by
  induction l using chunks8.induct with
  | case1 => rfl
  | case2 a b c d e f g hh rest ih =>
    have hr : rest.length % 8 = 0 := by simp at h; omega
    simp only [chunks8, List.map_cons, List.flatten_cons, byteBits_bitsToByte, ih hr]
    rfl
  | case3 l h1 h2 =>
    exfalso
    have hlt := length_lt_eight_of_no_eight l h2
    have hne : l ≠ [] := fun he => h1 he
    have hpos : 0 < l.length := List.length_pos.mpr hne
    omega

/-- Number of chunks on a bit string whose length is a multiple of 8. -/
lemma chunks8_length (l : List Bool) (h : l.length % 8 = 0) :
    (chunks8 l).length = l.length / 8 := by
  induction l using chunks8.induct with
  | case1 => rfl
  | case2 a b c d e f g hh rest ih =>
    have hr : rest.length % 8 = 0 := by simp at h; omega
    simp only [chunks8, List.length_cons]
    rw [ih hr]
    omega
  | case3 l h1 h2 =>
    exfalso
    have hlt := length_lt_eight_of_no_eight l h2
    have hne : l ≠ [] := fun he => h1 he
    have hpos : 0 < l.length := List.length_pos.mpr hne
    omega

/-- The padded bit string inside `bases_to_bytes`. -/
def paddedBits (b : List QBasis) : List Bool :=
  b.map basisBit ++ List.replicate ((b.length + 7) / 8 * 8 - b.length) false

lemma paddedBits_length (b : List QBasis) :
    (paddedBits b).length = (b.length + 7) / 8 * 8 := by
  simp only [paddedBits, List.length_append, List.length_map, List.length_replicate]
  omega

lemma paddedBits_length_mod (b : List QBasis) : (paddedBits b).length % 8 = 0 := by
  rw [paddedBits_length]; omega

lemma bases_to_bytes_eq (b : List QBasis) :
    bases_to_bytes b = (chunks8 (paddedBits b)).map bitsToByte := by
  simp only [bases_to_bytes, paddedBits, List.length_map]

/-- Core of the basis-codec round trip: for every basis sequence `b`,
unpacking the packed bytes truncated to `b.length` restores `b`. -/
lemma codec_roundtrip (b : List QBasis) :
    bytes_to_bases (bases_to_bytes b) b.length = b := by
  have hmap : ∀ x : QBasis,
      (fun bit => if bit then QBasis.Z else QBasis.X) (basisBit x) = x := by
    intro x; cases x <;> rfl
  rw [bases_to_bytes_eq, bytes_to_bases, List.map_map]
  have hfl : ((chunks8 (paddedBits b)).map fun c => byteBits (bitsToByte c)).flatten
      = paddedBits b := flatten_chunks8 _ (paddedBits_length_mod b)
  have hcomp : (chunks8 (paddedBits b)).map (byteBits ∘ bitsToByte)
      = (chunks8 (paddedBits b)).map fun c => byteBits (bitsToByte c) := rfl
  rw [hcomp, hfl, paddedBits]
  have htake : (b.map basisBit ++
      List.replicate ((b.length + 7) / 8 * 8 - b.length) false).take b.length
      = b.map basisBit := by
    have h1 : (b.map basisBit).length = b.length := List.length_map _ _
    rw [← h1]
    exact List.take_left _ _
  rw [htake, List.map_map]
  have : (fun bit => if bit then QBasis.Z else QBasis.X) ∘ basisBit = id := by
    funext x; exact hmap x
  rw [this, List.map_id]

/-- Applying the XOR keystream twice from the same offset is the
identity. -/
lemma ksFrom_involution (s : List Nat) : ∀ (i : Nat) (d : List Nat),
    ksFrom s i (ksFrom s i d) = d := by
  intro i d
  induction d generalizing i with
  | nil => rfl
  | cons b rest ih =>
    simp only [ksFrom, List.cons.injEq]
    constructor
    · rw [Nat.xor_assoc, Nat.xor_self, Nat.xor_zero]
    · exact ih (i + 1)

/-- Keystream involution at offset zero. -/
lemma apply_keystream_involution (d s : List Nat) :
    apply_keystream (apply_keystream d s) s = d :=
  ksFrom_involution s 0 d

/-- If the Responder decapsulates the transmitted ciphertext to the same
shared secret that the Initiator encapsulated, consuming the two handshake
payloads in their transmitted order recovers the Initiator's bases. -/
lemma bobHandshake_aliceMsgs (bases : List QBasis) (ss ct : List Nat)
    (decap : List Nat → List Nat) (hdec : decap ct = ss) :
    bobHandshake decap ((aliceHandshakeMsgs bases ss ct).map HandshakeMsg.payload) bases.length
      = some bases := by
  simp only [aliceHandshakeMsgs, List.map_cons, List.map_nil, HandshakeMsg.payload,
    bobHandshake, Kyber.encrypt, Kyber.decrypt, hdec, apply_keystream_involution,
    codec_roundtrip]

/-! ### The session state machine

`AliceProtocol.run` / `BobProtocol.run` / `run_bb84_kem`
(t5.py lines 119-237), in the timing regime described at the top of the
file.  Quantum loss is an explicit per-send oracle `drop`; the classical
channels are lossless FIFO queues, exactly as the code configures them. -/

/-- A transmitted qubit, represented by its preparation data
(t5.py lines 148-153): `create_qubits(1)`, `X` if the bit is 1, `H` if the
basis is `'X'`.  The quantum state itself lives in the external simulator;
this record is what `encode(bit, basis)` determines. -/
structure Qubit where
  bit : Nat
  basis : QBasis
deriving DecidableEq

/-- External `qapi.measure` after Bob's conditional H (t5.py lines 202-205): if the
measurement basis matches the preparation basis the prepared bit is
returned deterministically (H∘H = id); otherwise the outcome is an
externally supplied random bit `r % 2`. -/
def measureQubit (q : Qubit) (b : QBasis) (r : Nat) : Nat :=
  if q.basis = b then q.bit else r % 2

/-- One per-index send by the Initiator: the classical sequence tag
(t5.py line 147) or the qubit (t5.py line 153). -/
inductive SendEvent where
  | tag (i : Nat) : SendEvent
  | qubit (i : Nat) : SendEvent
deriving DecidableEq

/-- The index a send event carries. -/
def SendEvent.idx : SendEvent → Nat
  | SendEvent.tag i => i
  | SendEvent.qubit i => i

/-- Session parameters and per-session data: Alice's bit and basis
sequences, Bob's recovered basis sequence, the retry budget, the quantum
loss oracle (`drop k` = the k-th qubit send is lost in the channel) and
the measurement-randomness oracle (used only on basis mismatch). -/
structure Session where
  bits : List Nat
  bases : List QBasis
  recBases : List QBasis
  maxRetries : Nat
  drop : Nat → Bool
  rnd : Nat → Nat

/-- Source `num_bits`: the session bit count, the length of Alice's bit list. -/
def Session.numBits (P : Session) : Nat := P.bits.length

/-- Joint protocol state: Alice's `current_idx` and attempt bookkeeping,
Bob's `expected_idx` and `measurements`, and the three channel queues
(tags Alice→Bob, qubits Alice→Bob, ACKs Bob→Alice).  `log` records every
per-index send Alice performs, `ackWaits` counts her ACK-wait races,
`sendCount` numbers the qubit sends for the loss oracle, `measuredIdxs`
records which index each of Bob's measurements consumed. -/
structure SessState where
  currentIdx : Nat
  expectedIdx : Nat
  tagQueue : List Nat
  qubitQueue : List Qubit
  ackQueue : List Nat
  measurements : List Nat
  measuredIdxs : List Nat
  log : List SendEvent
  ackWaits : Nat
  sendCount : Nat
  aborted : Bool
deriving DecidableEq

/-- The state in which both protocols start (t5.py lines 129, 176). -/
def initState : SessState :=
  ⟨0, 0, [], [], [], [], [], [], 0, 0, false⟩

/-- Bob's handling of one (tag, qubit) pair (t5.py lines 202-208): if the
tag equals `expected_idx`, measure in the recovered basis at that index,
record the result, ACK `expected_idx` and increment it; otherwise discard
both silently. -/
def bobHandle (P : Session) (st : SessState) (t : Nat) (q : Qubit) : SessState :=
  if t = st.expectedIdx then
    { st with
      measurements := st.measurements ++
        [measureQubit q (P.recBases.getD st.expectedIdx QBasis.Z) (P.rnd st.measurements.length)],
      measuredIdxs := st.measuredIdxs ++ [st.expectedIdx],
      ackQueue := st.ackQueue ++ [st.expectedIdx],
      expectedIdx := st.expectedIdx + 1 }
  else st

/-- Bob's receive loop (t5.py lines 195-208): while `expected_idx <
num_bits`, take the next tag and the next qubit (both must have arrived)
and handle the pair.  The fuel argument bounds the number of pairs. -/
def bobProcessAux (P : Session) : Nat → SessState → SessState
  | 0, st => st
  | f + 1, st =>
    if st.expectedIdx < P.numBits then
      match st.tagQueue, st.qubitQueue with
      | t :: ts, q :: qs =>
          bobProcessAux P f (bobHandle P { st with tagQueue := ts, qubitQueue := qs } t q)
      | _, _ => st
    else st

/-- Run Bob's loop on every currently deliverable (tag, qubit) pair. -/
def bobProcess (P : Session) (st : SessState) : SessState :=
  bobProcessAux P st.tagQueue.length st

/-- Alice's ACK-wait race (t5.py lines 154-158): if an ACK is pending it
is read (channel delivery wins the race), and the attempt counts as
acknowledged iff it carries `current_idx` `i`; otherwise the timer fires.
Either way one ACK-wait is recorded. -/
def ackRead (st : SessState) (i : Nat) : SessState × Bool :=
  match st.ackQueue with
  | a :: rest => ({ st with ackQueue := rest, ackWaits := st.ackWaits + 1 }, a == i)
  | [] => ({ st with ackWaits := st.ackWaits + 1 }, false)

/-- One attempt of Alice's inner retry loop (t5.py lines 147-159): send
the tag, encode and send a fresh qubit (lost in the channel iff the drop
oracle says so), let Bob process whatever pairs are deliverable, then
race ACK-arrival against the timeout. -/
def doAttempt (P : Session) (st : SessState) : SessState × Bool :=
  let i := st.currentIdx
  let q : Qubit := ⟨P.bits.getD i 0, P.bases.getD i QBasis.Z⟩
  let st1 : SessState := { st with
    tagQueue := st.tagQueue ++ [i],
    qubitQueue := if P.drop st.sendCount then st.qubitQueue else st.qubitQueue ++ [q],
    log := st.log ++ [SendEvent.tag i, SendEvent.qubit i],
    sendCount := st.sendCount + 1 }
  ackRead (bobProcess P st1) i

/-- Alice's inner retry loop (t5.py lines 144-159):
`while attempts < max_retries and not acked`, with the remaining attempt
budget counted down. -/
def attemptLoop (P : Session) : Nat → SessState → SessState × Bool
  | 0, st => (st, false)
  | m + 1, st =>
    if (doAttempt P st).2 then ((doAttempt P st).1, true)
    else attemptLoop P m (doAttempt P st).1

/-- Alice's outer loop (t5.py lines 143-165):
`while current_idx < num_bits`, run the retry loop; on an ACK advance
`current_idx`, otherwise stop the session (`break`, recorded as
`aborted`).  Fuel `numBits` suffices since every continuing iteration
advances `current_idx`. -/
def outerLoop (P : Session) : Nat → SessState → SessState
  | 0, st => st
  | f + 1, st =>
    if st.currentIdx < P.numBits then
      if (attemptLoop P P.maxRetries st).2 then
        outerLoop P f { (attemptLoop P P.maxRetries st).1 with
          currentIdx := (attemptLoop P P.maxRetries st).1.currentIdx + 1 }
      else { (attemptLoop P P.maxRetries st).1 with aborted := true }
    else st

/-- What `run_bb84_kem` reports (t5.py lines 231-237): the key-match
verdict, the number of bits Bob measured (`len(bob.measurements)`,
the spec's `delivered_count`), and the final joint state. -/
structure RunResult where
  success : Bool
  delivered : Nat
  final : SessState
deriving DecidableEq

/-- The session parameters `run_bb84_kem` assembles: Bob's recovered
bases come from the handshake messages Alice transmitted. -/
def sessionOf (bits : List Nat) (bases : List QBasis) (ss ct : List Nat)
    (decap : List Nat → List Nat) (drop : Nat → Bool) (rnd : Nat → Nat)
    (max_retries : Nat) : Session :=
  ⟨bits, bases,
   (bobHandshake decap ((aliceHandshakeMsgs bases ss ct).map HandshakeMsg.payload)
      bits.length).getD [],
   max_retries, drop, rnd⟩

/-- Source `run_bb84_kem` (t5.py lines 210-237): Bob generates his keypair
(external; its contract is the `decap`/`ct`/`ss` parameters), Alice runs
the handshake (two classical messages in source order), Bob recovers the
basis sequence from them, both run the session loop, and the result
compares Bob's measurements with Alice's bits. -/
def run_bb84_kem (bits : List Nat) (bases : List QBasis) (ss ct : List Nat)
    (decap : List Nat → List Nat) (drop : Nat → Bool) (rnd : Nat → Nat)
    (max_retries : Nat) : RunResult :=
  let P : Session := sessionOf bits bases ss ct decap drop rnd max_retries
  let fin := outerLoop P bits.length initState
  { success := P.bits == fin.measurements,
    delivered := fin.measurements.length,
    final := fin }

example :
    (run_bb84_kem [1, 0, 1] [QBasis.X, QBasis.Z, QBasis.X] [7] [9]
      (fun _ => [7]) (fun _ => false) (fun _ => 0) 2).success = true := by decide
example :
    (run_bb84_kem [1, 0, 1] [QBasis.X, QBasis.Z, QBasis.X] [7] [9]
      (fun _ => [7]) (fun _ => false) (fun _ => 0) 2).delivered = 3 := by decide
example :
    (run_bb84_kem [1, 0] [QBasis.X, QBasis.Z] [7] [9]
      (fun _ => [7]) (fun _ => true) (fun _ => 0) 3).success = false := by decide
example :
    (run_bb84_kem [1, 0] [QBasis.X, QBasis.Z] [7] [9]
      (fun _ => [7]) (fun _ => false) (fun _ => 0) 0).final.log = [] := by decide

/-! ### The deterministic zero-loss run -/

lemma take_succ_getD (l : List Nat) (i : Nat) (h : i < l.length) :
    l.take i ++ [l.getD i 0] = l.take (i + 1) := by
  rw [List.take_succ]
  simp [List.getElem?_eq_getElem h, List.getD_eq_getElem?_getD]

/-- With no quantum loss and matching recovered bases, every attempt from
a quiescent in-sync state succeeds at once: the tag and the qubit arrive,
Bob's tag check passes, he measures Alice's bit, ACKs, and Alice reads a
matching ACK.  Stated for the first attempt of any non-zero budget. -/
lemma attempt_clean (P : Session) (hrec : P.recBases = P.bases)
    (hdrop : ∀ k, P.drop k = false)
    (m i : Nat) (lg : List SendEvent) (aw sc : Nat) (hi : i < P.numBits) :
    attemptLoop P (m + 1) ⟨i, i, [], [], [], P.bits.take i, List.range i, lg, aw, sc, false⟩
      = (⟨i, i + 1, [], [], [], P.bits.take (i + 1), List.range (i + 1),
          lg ++ [SendEvent.tag i, SendEvent.qubit i], aw + 1, sc + 1, false⟩, true) := by
  have hbits : i < P.bits.length := hi
  have hq : ∀ r, measureQubit ⟨P.bits[i]?.getD 0, P.bases[i]?.getD QBasis.Z⟩
      (P.recBases[i]?.getD QBasis.Z) r = P.bits[i]?.getD 0 := by
    intro r; rw [hrec]; simp [measureQubit]
  have hdr : P.drop sc = false := hdrop sc
  simp only [attemptLoop, doAttempt, ackRead, bobProcess, bobProcessAux, bobHandle]
  simp [hdr, hi, hq, List.range_succ]
  rw [List.take_succ]
  simp [List.getElem?_eq_getElem hbits]

/-- Iterating `attempt_clean` over the outer loop: a zero-loss session
walks `current_idx` from `i` to `num_bits`, delivering every bit. -/
lemma outer_clean (P : Session) (hrec : P.recBases = P.bases)
    (hdrop : ∀ k, P.drop k = false) (hmr : 1 ≤ P.maxRetries) :
    ∀ (f i : Nat) (lg : List SendEvent) (aw sc : Nat), i + f = P.numBits →
      ∃ lg' aw' sc',
        outerLoop P f ⟨i, i, [], [], [], P.bits.take i, List.range i, lg, aw, sc, false⟩
          = ⟨P.numBits, P.numBits, [], [], [], P.bits, List.range P.numBits,
             lg', aw', sc', false⟩ := by
  intro f
  induction f with
  | zero =>
    intro i lg aw sc hif
    have hin : i = P.numBits := by omega
    subst hin
    refine ⟨lg, aw, sc, ?_⟩
    have htk : P.bits.take P.numBits = P.bits := List.take_length P.bits
    simp [outerLoop, htk]
  | succ f ih =>
    intro i lg aw sc hif
    have hi : i < P.numBits := by omega
    obtain ⟨m, hm⟩ : ∃ m, P.maxRetries = m + 1 := ⟨P.maxRetries - 1, by omega⟩
    rw [outerLoop, if_pos hi, hm, attempt_clean P hrec hdrop m i lg aw sc hi]
    simp only [ite_true, reduceIte]
    exact ih (i + 1) (lg ++ [SendEvent.tag i, SendEvent.qubit i]) (aw + 1) (sc + 1) (by omega)

/-! ### General session invariants (arbitrary loss pattern) -/

/-- The Responder-side invariant: `expected_idx` stays within the session,
the list of consumed indices is exactly `0, …, expected_idx - 1`, and one
measurement was recorded per consumed index. -/
def BobMInv (P : Session) (st : SessState) : Prop :=
  st.expectedIdx ≤ P.numBits ∧
  st.measuredIdxs = List.range st.expectedIdx ∧
  st.measurements.length = st.expectedIdx

/-- Pair handling touches only Bob's measurement fields. -/
lemma bobHandle_keeps (P : Session) (st : SessState) (t : Nat) (q : Qubit) :
    (bobHandle P st t q).currentIdx = st.currentIdx ∧
    (bobHandle P st t q).log = st.log ∧
    (bobHandle P st t q).ackWaits = st.ackWaits ∧
    (bobHandle P st t q).sendCount = st.sendCount ∧
    (bobHandle P st t q).aborted = st.aborted ∧
    (bobHandle P st t q).tagQueue = st.tagQueue ∧
    (bobHandle P st t q).qubitQueue = st.qubitQueue := by
  unfold bobHandle
  split <;> exact ⟨rfl, rfl, rfl, rfl, rfl, rfl, rfl⟩

/-- Pair handling moves `expected_idx` by zero or one. -/
lemma bobHandle_expected (P : Session) (st : SessState) (t : Nat) (q : Qubit) :
    (bobHandle P st t q).expectedIdx = st.expectedIdx ∨
    (bobHandle P st t q).expectedIdx = st.expectedIdx + 1 := by
  unfold bobHandle
  split
  · right; rfl
  · left; rfl

/-- Pair handling preserves the Responder invariant while
`expected_idx < num_bits`. -/
lemma bobHandle_minv (P : Session) (st : SessState) (t : Nat) (q : Qubit)
    (h : BobMInv P st) (hlt : st.expectedIdx < P.numBits) :
    BobMInv P (bobHandle P st t q) := by
  obtain ⟨h1, h2, h3⟩ := h
  unfold bobHandle
  split
  · exact ⟨hlt, by simp [h2, List.range_succ], by simp [h3]⟩
  · exact ⟨h1, h2, h3⟩

/-- Bob's processing loop touches only his own fields and preserves his
invariant. -/
lemma bobProcessAux_facts (P : Session) : ∀ (f : Nat) (st : SessState),
    (bobProcessAux P f st).currentIdx = st.currentIdx ∧
    (bobProcessAux P f st).log = st.log ∧
    (bobProcessAux P f st).ackWaits = st.ackWaits ∧
    (bobProcessAux P f st).sendCount = st.sendCount ∧
    (bobProcessAux P f st).aborted = st.aborted ∧
    (BobMInv P st → BobMInv P (bobProcessAux P f st)) := by
  intro f
  induction f with
  | zero => intro st; exact ⟨rfl, rfl, rfl, rfl, rfl, fun h => h⟩
  | succ f ih =>
    intro st
    simp only [bobProcessAux]
    by_cases h : st.expectedIdx < P.numBits
    · rw [if_pos h]
      cases htq : st.tagQueue with
      | nil => exact ⟨rfl, rfl, rfl, rfl, rfl, fun hh => hh⟩
      | cons t ts =>
        cases hqq : st.qubitQueue with
        | nil => exact ⟨rfl, rfl, rfl, rfl, rfl, fun hh => hh⟩
        | cons q qs =>
          have hk := bobHandle_keeps P { st with tagQueue := ts, qubitQueue := qs } t q
          have hr := ih (bobHandle P { st with tagQueue := ts, qubitQueue := qs } t q)
          refine ⟨?_, ?_, ?_, ?_, ?_, ?_⟩
          · rw [hr.1, hk.1]
          · rw [hr.2.1, hk.2.1]
          · rw [hr.2.2.1, hk.2.2.1]
          · rw [hr.2.2.2.1, hk.2.2.2.1]
          · rw [hr.2.2.2.2.1, hk.2.2.2.2.1]
          · intro hm
            refine hr.2.2.2.2.2 (bobHandle_minv P _ t q ?_ h)
            exact hm
    · rw [if_neg h]
      exact ⟨rfl, rfl, rfl, rfl, rfl, fun hh => hh⟩

/-- Bob's processing loop never pushes `expected_idx` past `num_bits`
(instance of the invariant). -/
lemma bobProcess_expected_le (P : Session) (st : SessState)
    (h : BobMInv P st) : (bobProcess P st).expectedIdx ≤ P.numBits :=
  ((bobProcessAux_facts P st.tagQueue.length st).2.2.2.2.2 h).1

/-- All field facts about `bobProcess` in one statement. -/
lemma bobProcess_facts (P : Session) (st : SessState) :
    (bobProcess P st).currentIdx = st.currentIdx ∧
    (bobProcess P st).log = st.log ∧
    (bobProcess P st).ackWaits = st.ackWaits ∧
    (bobProcess P st).sendCount = st.sendCount ∧
    (bobProcess P st).aborted = st.aborted ∧
    (BobMInv P st → BobMInv P (bobProcess P st)) :=
  bobProcessAux_facts P st.tagQueue.length st

/-- The ACK-wait race touches only the ACK queue and the wait counter. -/
lemma ackRead_facts (P : Session) (st : SessState) (i : Nat) :
    (ackRead st i).1.currentIdx = st.currentIdx ∧
    (ackRead st i).1.log = st.log ∧
    (ackRead st i).1.aborted = st.aborted ∧
    (BobMInv P st → BobMInv P (ackRead st i).1) := by
  unfold ackRead
  split <;> exact ⟨rfl, rfl, rfl, fun h => h⟩

/-- One Alice attempt: `current_idx` is untouched, exactly one tag and one
qubit send at `current_idx` are logged, and Bob's invariant is
preserved. -/
lemma doAttempt_facts (P : Session) (st : SessState) :
    (doAttempt P st).1.currentIdx = st.currentIdx ∧
    (doAttempt P st).1.log
      = st.log ++ [SendEvent.tag st.currentIdx, SendEvent.qubit st.currentIdx] ∧
    (doAttempt P st).1.aborted = st.aborted ∧
    (BobMInv P st → BobMInv P (doAttempt P st).1) := by
  simp only [doAttempt]
  set st1 : SessState := { st with
    tagQueue := st.tagQueue ++ [st.currentIdx],
    qubitQueue := if P.drop st.sendCount then st.qubitQueue
      else st.qubitQueue ++ [⟨P.bits.getD st.currentIdx 0, P.bases.getD st.currentIdx QBasis.Z⟩],
    log := st.log ++ [SendEvent.tag st.currentIdx, SendEvent.qubit st.currentIdx],
    sendCount := st.sendCount + 1 } with hst1
  have hm0 : BobMInv P st → BobMInv P st1 := by
    intro h
    rw [hst1]
    exact h
  have hb := bobProcess_facts P st1
  have ha := ackRead_facts P (bobProcess P st1) st.currentIdx
  have h1 : st1.currentIdx = st.currentIdx := by rw [hst1]
  have h2 : st1.log = st.log ++ [SendEvent.tag st.currentIdx, SendEvent.qubit st.currentIdx] := by
    rw [hst1]
  have h3 : st1.aborted = st.aborted := by rw [hst1]
  exact ⟨by rw [ha.1, hb.1, h1], by rw [ha.2.1, hb.2.1, h2],
    by rw [ha.2.2.1, hb.2.2.2.2.1, h3],
    fun hm => ha.2.2.2 (hb.2.2.2.2.2 (hm0 hm))⟩

/-- The retry loop: `current_idx` and `aborted` are untouched, the log
grows only by sends at `current_idx` — at most one tag and one qubit per
attempt — and Bob's invariant is preserved. -/
lemma attemptLoop_facts (P : Session) : ∀ (m : Nat) (st : SessState),
    (attemptLoop P m st).1.currentIdx = st.currentIdx ∧
    (attemptLoop P m st).1.aborted = st.aborted ∧
    (BobMInv P st → BobMInv P (attemptLoop P m st).1) ∧
    ∃ L, (attemptLoop P m st).1.log = st.log ++ L ∧
      (∀ e ∈ L, SendEvent.idx e = st.currentIdx) ∧
      L.count (SendEvent.tag st.currentIdx) ≤ m ∧
      L.count (SendEvent.qubit st.currentIdx) ≤ m := by
  intro m
  induction m with
  | zero =>
    intro st
    exact ⟨rfl, rfl, fun h => h, ⟨[], by simp [attemptLoop], by simp, by simp, by simp⟩⟩
  | succ m ih =>
    intro st
    have hd := doAttempt_facts P st
    have hc1 : List.count (SendEvent.tag st.currentIdx)
        [SendEvent.tag st.currentIdx, SendEvent.qubit st.currentIdx] = 1 := by simp
    have hc2 : List.count (SendEvent.qubit st.currentIdx)
        [SendEvent.tag st.currentIdx, SendEvent.qubit st.currentIdx] = 1 := by simp
    simp only [attemptLoop]
    by_cases hr : (doAttempt P st).2
    · rw [if_pos hr]
      refine ⟨hd.1, hd.2.2.1, fun h => hd.2.2.2 h,
        ⟨[SendEvent.tag st.currentIdx, SendEvent.qubit st.currentIdx], hd.2.1, ?_, ?_, ?_⟩⟩
      · intro e he
        simp only [List.mem_cons, List.not_mem_nil, or_false] at he
        rcases he with rfl | rfl <;> rfl
      · rw [hc1]; omega
      · rw [hc2]; omega
    · rw [if_neg hr]
      have hi := ih (doAttempt P st).1
      obtain ⟨L, hL, hLidx, hLt, hLq⟩ := hi.2.2.2
      rw [hd.1] at hLidx hLt hLq
      rw [hd.2.1] at hL
      refine ⟨hi.1.trans hd.1, hi.2.1.trans hd.2.2.1,
        fun h => hi.2.2.1 (hd.2.2.2 h),
        ⟨[SendEvent.tag st.currentIdx, SendEvent.qubit st.currentIdx] ++ L, ?_, ?_, ?_, ?_⟩⟩
      · rw [hL, List.append_assoc]
      · intro e he
        rcases List.mem_append.mp he with he | he
        · simp only [List.mem_cons, List.not_mem_nil, or_false] at he
          rcases he with rfl | rfl <;> rfl
        · exact hLidx e he
      · rw [List.count_append, hc1]; omega
      · rw [List.count_append, hc2]; omega

/-- Invariant holding whenever Alice's outer loop is at its top: the index
is in range, every logged send belongs to an already-processed index
(strictly below `current_idx`), Bob's invariant holds, and the session has
not aborted. -/
def OuterInv (P : Session) (st : SessState) : Prop :=
  st.currentIdx ≤ P.numBits ∧
  (∀ e ∈ st.log, SendEvent.idx e < st.currentIdx) ∧
  BobMInv P st ∧
  st.aborted = false

/-- What is true of the state the outer loop finally returns, whether it
completed or aborted: the index is in range, no send belongs to an index
above `current_idx`, the current (possibly aborted) index was attempted at
most `max_retries` times, indices above it were never attempted at all,
and Bob's invariant holds. -/
def FinalFacts (P : Session) (st : SessState) : Prop :=
  st.currentIdx ≤ P.numBits ∧
  (∀ e ∈ st.log, SendEvent.idx e ≤ st.currentIdx) ∧
  st.log.count (SendEvent.tag st.currentIdx) ≤ P.maxRetries ∧
  st.log.count (SendEvent.qubit st.currentIdx) ≤ P.maxRetries ∧
  (∀ j, st.currentIdx < j →
    st.log.count (SendEvent.tag j) = 0 ∧ st.log.count (SendEvent.qubit j) = 0) ∧
  BobMInv P st

/-- Sends with indices strictly below `current_idx` contribute no
occurrences of events at `current_idx` or above. -/
lemma count_eq_zero_of_lt (lg : List SendEvent) (c j : Nat)
    (hlg : ∀ e ∈ lg, SendEvent.idx e < c) (hj : c ≤ j) :
    lg.count (SendEvent.tag j) = 0 ∧ lg.count (SendEvent.qubit j) = 0 := by
  constructor
  · rw [List.count_eq_zero]
    intro hmem
    have := hlg _ hmem
    simp only [SendEvent.idx] at this
    omega
  · rw [List.count_eq_zero]
    intro hmem
    have := hlg _ hmem
    simp only [SendEvent.idx] at this
    omega

/-- The outer loop takes a top-of-loop state to a final state satisfying
`FinalFacts`. -/
lemma outerLoop_facts (P : Session) : ∀ (f : Nat) (st : SessState),
    OuterInv P st → FinalFacts P (outerLoop P f st) := by
  intro f
  induction f with
  | zero =>
    intro st h
    obtain ⟨h1, h2, h3, h4⟩ := h
    simp only [outerLoop]
    refine ⟨h1, fun e he => Nat.le_of_lt (h2 e he), ?_, ?_, ?_, h3⟩
    · have h0 := (count_eq_zero_of_lt st.log st.currentIdx st.currentIdx h2 (Nat.le_refl _)).1
      omega
    · have h0 := (count_eq_zero_of_lt st.log st.currentIdx st.currentIdx h2 (Nat.le_refl _)).2
      omega
    · intro j hj
      exact count_eq_zero_of_lt st.log st.currentIdx j h2 (Nat.le_of_lt hj)
  | succ f ih =>
    intro st h
    obtain ⟨h1, h2, h3, h4⟩ := h
    simp only [outerLoop]
    by_cases hcur : st.currentIdx < P.numBits
    · rw [if_pos hcur]
      have ha := attemptLoop_facts P P.maxRetries st
      obtain ⟨L, hL, hLidx, hLt, hLq⟩ := ha.2.2.2
      by_cases hok : (attemptLoop P P.maxRetries st).2
      · rw [if_pos hok]
        refine ih _ ⟨?_, ?_, ?_, ?_⟩
        · simp only [ha.1]
          omega
        · intro e he
          simp only [hL] at he
          rcases List.mem_append.mp he with he | he
          · have := h2 e he
            simp only [ha.1]
            omega
          · have := hLidx e he
            simp only [ha.1, this]
            omega
        · obtain ⟨hb1, hb2, hb3⟩ := ha.2.2.1 h3
          exact ⟨hb1, hb2, hb3⟩
        · simp only [ha.2.1, h4]
      · rw [if_neg hok]
        have hcc : (attemptLoop P P.maxRetries st).1.currentIdx = st.currentIdx := ha.1
        refine ⟨?_, ?_, ?_, ?_, ?_, ?_⟩
        · simp only [hcc]; omega
        · intro e he
          simp only [hL] at he
          rcases List.mem_append.mp he with he | he
          · have := h2 e he
            simp only [hcc]
            omega
          · have := hLidx e he
            simp only [hcc, this]
            omega
        · simp only [hcc, hL, List.count_append]
          have h0 := (count_eq_zero_of_lt st.log st.currentIdx st.currentIdx h2
            (Nat.le_refl _)).1
          omega
        · simp only [hcc, hL, List.count_append]
          have h0 := (count_eq_zero_of_lt st.log st.currentIdx st.currentIdx h2
            (Nat.le_refl _)).2
          omega
        · intro j hj
          simp only [hcc] at hj
          simp only [hcc, hL, List.count_append]
          have h0 := count_eq_zero_of_lt st.log st.currentIdx j h2 (Nat.le_of_lt hj)
          have hz : L.count (SendEvent.tag j) = 0 ∧ L.count (SendEvent.qubit j) = 0 := by
            constructor
            · rw [List.count_eq_zero]
              intro hmem
              have := hLidx _ hmem
              simp only [SendEvent.idx] at this
              omega
            · rw [List.count_eq_zero]
              intro hmem
              have := hLidx _ hmem
              simp only [SendEvent.idx] at this
              omega
          omega
        · obtain ⟨hb1, hb2, hb3⟩ := ha.2.2.1 h3
          exact ⟨hb1, hb2, hb3⟩
    · rw [if_neg hcur]
      refine ⟨h1, fun e he => Nat.le_of_lt (h2 e he), ?_, ?_, ?_, h3⟩
      · have h0 := (count_eq_zero_of_lt st.log st.currentIdx st.currentIdx h2 (Nat.le_refl _)).1
        omega
      · have h0 := (count_eq_zero_of_lt st.log st.currentIdx st.currentIdx h2 (Nat.le_refl _)).2
        omega
      · intro j hj
        exact count_eq_zero_of_lt st.log st.currentIdx j h2 (Nat.le_of_lt hj)

/-- Alice's `current_idx` never decreases across the outer loop. -/
lemma outerLoop_mono (P : Session) : ∀ (f : Nat) (st : SessState),
    st.currentIdx ≤ (outerLoop P f st).currentIdx := by
  intro f
  induction f with
  | zero => intro st; exact Nat.le_refl _
  | succ f ih =>
    intro st
    simp only [outerLoop]
    by_cases hcur : st.currentIdx < P.numBits
    · rw [if_pos hcur]
      have ha := (attemptLoop_facts P P.maxRetries st).1
      by_cases hok : (attemptLoop P P.maxRetries st).2
      · rw [if_pos hok]
        have hr := ih { (attemptLoop P P.maxRetries st).1 with
          currentIdx := (attemptLoop P P.maxRetries st).1.currentIdx + 1 }
        simp only at hr
        omega
      · rw [if_neg hok]
        exact Nat.le_of_eq ha.symm
    · rw [if_neg hcur]

/-- The initial joint state satisfies the top-of-loop invariant. -/
lemma initState_outerInv (P : Session) : OuterInv P initState := by
  refine ⟨Nat.zero_le _, ?_, ⟨Nat.zero_le _, rfl, rfl⟩, rfl⟩
  intro e he
  simp [initState] at he

/-- The final state of a full `run_bb84_kem` session. -/
lemma run_final_eq (bits : List Nat) (bases : List QBasis) (ss ct : List Nat)
    (decap : List Nat → List Nat) (drop : Nat → Bool) (rnd : Nat → Nat) (mr : Nat) :
    (run_bb84_kem bits bases ss ct decap drop rnd mr).final
      = outerLoop (sessionOf bits bases ss ct decap drop rnd mr) bits.length initState := rfl

/-- Every full session run lands in a state satisfying `FinalFacts`. -/
lemma runFinal_facts (bits : List Nat) (bases : List QBasis) (ss ct : List Nat)
    (decap : List Nat → List Nat) (drop : Nat → Bool) (rnd : Nat → Nat) (mr : Nat) :
    FinalFacts (sessionOf bits bases ss ct decap drop rnd mr)
      (run_bb84_kem bits bases ss ct decap drop rnd mr).final :=
  outerLoop_facts _ _ _ (initState_outerInv _)

/-- With a zero retry budget the outer loop aborts on its first iteration
without any attempt. -/
lemma outerLoop_mr0 (P : Session) (hmr : P.maxRetries = 0) (g : Nat) (st : SessState)
    (hcur : st.currentIdx < P.numBits) :
    outerLoop P (g + 1) st = { st with aborted := true } := by
  simp only [outerLoop, hmr, attemptLoop]
  rw [if_pos hcur]
  simp

/-- With `max_retries = 0` the session aborts immediately — no send of any
kind, no ACK-wait, no measurement — and is reported failed with zero
delivered bits. -/
lemma run_mr0 (bits : List Nat) (bases : List QBasis) (ss ct : List Nat)
    (decap : List Nat → List Nat) (drop : Nat → Bool) (rnd : Nat → Nat)
    (h : 1 ≤ bits.length) :
    (run_bb84_kem bits bases ss ct decap drop rnd 0).final
      = { initState with aborted := true } ∧
    (run_bb84_kem bits bases ss ct decap drop rnd 0).success = false ∧
    (run_bb84_kem bits bases ss ct decap drop rnd 0).delivered = 0 := by
  have hfin : (run_bb84_kem bits bases ss ct decap drop rnd 0).final
      = { initState with aborted := true } := by
    obtain ⟨n, hn⟩ : ∃ n, bits.length = n + 1 := ⟨bits.length - 1, by omega⟩
    rw [run_final_eq, hn]
    exact outerLoop_mr0 _ rfl n initState (by show 0 < bits.length; omega)
  have hsucc : (run_bb84_kem bits bases ss ct decap drop rnd 0).success
      = (bits == (run_bb84_kem bits bases ss ct decap drop rnd 0).final.measurements) := rfl
  have hdel : (run_bb84_kem bits bases ss ct decap drop rnd 0).delivered
      = (run_bb84_kem bits bases ss ct decap drop rnd 0).final.measurements.length := rfl
  refine ⟨hfin, ?_, ?_⟩
  · rw [hsucc, hfin]
    cases bits with
    | nil => simp at h
    | cons b bs => rfl
  · rw [hdel, hfin]
    rfl

/-- The session that `run_bb84_kem` assembles recovers exactly Alice's
bases, provided decapsulation honours the KEM contract. -/
lemma sessionOf_recBases (bits : List Nat) (bases : List QBasis) (ss ct : List Nat)
    (decap : List Nat → List Nat) (drop : Nat → Bool) (rnd : Nat → Nat) (mr : Nat)
    (hdec : decap ct = ss) (hblen : bases.length = bits.length) :
    (sessionOf bits bases ss ct decap drop rnd mr).recBases = bases := by
  show (bobHandshake decap ((aliceHandshakeMsgs bases ss ct).map HandshakeMsg.payload)
      bits.length).getD [] = bases
  rw [← hblen, bobHandshake_aliceMsgs bases ss ct decap hdec]
  rfl

/-- Bob's loop keeps `expected_idx` within `num_bits`, needing only that
bound as a precondition. -/
lemma bobProcessAux_exp_le (P : Session) : ∀ (f : Nat) (st : SessState),
    st.expectedIdx ≤ P.numBits → (bobProcessAux P f st).expectedIdx ≤ P.numBits := by
  intro f
  induction f with
  | zero => intro st h; exact h
  | succ f ih =>
    intro st h
    simp only [bobProcessAux]
    by_cases hlt : st.expectedIdx < P.numBits
    · rw [if_pos hlt]
      cases htq : st.tagQueue with
      | nil => exact h
      | cons t ts =>
        cases hqq : st.qubitQueue with
        | nil => exact h
        | cons q qs =>
          apply ih
          rcases bobHandle_expected P { st with tagQueue := ts, qubitQueue := qs } t q
            with he | he
          · rw [he]; exact h
          · rw [he]; exact hlt
    · rw [if_neg hlt]; exact h

/-- Wrapper fact: `bobProcess` keeps `expected_idx` within `num_bits`. -/
lemma bobProcess_exp_le (P : Session) (st : SessState)
    (h : st.expectedIdx ≤ P.numBits) : (bobProcess P st).expectedIdx ≤ P.numBits :=
  bobProcessAux_exp_le P st.tagQueue.length st h

/-! ### Spec-side packing definitions (claim C8) -/

/-- Spec-side: the single bit a basis contributes in the amended claim —
the code maps the Diagonal basis (`'X'`, the one it applies H for) to 0
and the Rectilinear basis (`'Z'`) to 1. -/
def specBasisBit (b : QBasis) : Bool :=
  match b with
  | QBasis.X => false
  | QBasis.Z => true

/-- Spec-side: the exact bit string the packed bytes must spell out when
read back most-significant-bit first: one bit per basis choice, in order,
zero-padded to a multiple of eight bits. -/
def specPackedBits (b : List QBasis) : List Bool :=
  b.map specBasisBit ++ List.replicate ((b.length + 7) / 8 * 8 - b.length) false

/-- The packing exactly as claim C8 words it: Diagonal (`'X'`) → 1,
Rectilinear (`'Z'`) → 0, eight bits per byte most-significant-bit first,
zero-padding the final byte.  Refuted against `bases_to_bytes` below. -/
def packC8claim (bases : List QBasis) : List Nat :=
  let bits := bases.map fun b => match b with | QBasis.X => true | QBasis.Z => false
  let padded := bits ++ List.replicate ((bits.length + 7) / 8 * 8 - bits.length) false
  (chunks8 padded).map bitsToByte

/-! ### The claims -/

/-- C1 (counterexample): the claim says the Initiator transmits the KEM
ciphertext first and the encrypted basis bytes second, i.e. that the
handshake trace is cipher-then-encrypted-bases; at the concrete session
below the source's trace (t5.py lines 137-138) is the opposite order, so
the claim as stated is false. -/
theorem C1_counterexample :
    (aliceHandshakeMsgs [QBasis.X] [1] [2]).map HandshakeMsg.isCipher ≠ [true, false] := by
  decide

/-- C1 (amended): the Initiator transmits the encrypted basis bytes first
and the KEM ciphertext second as two classical messages, and the Responder
consumes them in that same fixed order (encrypted bases, then ciphertext)
before decapsulating and decrypting — recovering exactly the Initiator's
bases whenever decapsulation returns the encapsulated secret. -/
theorem C1_amended_order (bases : List QBasis) (ss ct : List Nat)
    (decap : List Nat → List Nat) (hdec : decap ct = ss) (hss : 1 ≤ ss.length) :
    (aliceHandshakeMsgs bases ss ct).map HandshakeMsg.isCipher = [false, true] ∧
    bobHandshake decap ((aliceHandshakeMsgs bases ss ct).map HandshakeMsg.payload) bases.length
      = some bases :=
  ⟨rfl, bobHandshake_aliceMsgs bases ss ct decap hdec⟩

/-- Witness for C1: the amended order theorem at a concrete handshake. -/
theorem C1_witness :
    (aliceHandshakeMsgs [QBasis.X, QBasis.Z] [3] [5]).map HandshakeMsg.isCipher
      = [false, true] ∧
    bobHandshake (fun _ => [3])
      ((aliceHandshakeMsgs [QBasis.X, QBasis.Z] [3] [5]).map HandshakeMsg.payload) 2
      = some [QBasis.X, QBasis.Z] :=
  C1_amended_order [QBasis.X, QBasis.Z] [3] [5] (fun _ => [3]) rfl (by decide)

/-- C2: zero-loss determinism.  With quantum loss probability 0 (the drop
oracle is constantly false; the model's ACK-wait already realises the
"effectively unbounded `ack_timeout`" regime), any `max_retries ≥ 1` and
any `bit_count ≥ 1`, the session succeeds, delivers every bit, and Bob's
measured sequence equals Alice's bit sequence element-wise. -/
theorem C2_zero_loss (bits : List Nat) (bases : List QBasis) (ss ct : List Nat)
    (decap : List Nat → List Nat) (rnd : Nat → Nat) (mr : Nat)
    (hblen : bases.length = bits.length) (hn : 1 ≤ bits.length) (hmr : 1 ≤ mr)
    (hss : 1 ≤ ss.length) (hdec : decap ct = ss) :
    (run_bb84_kem bits bases ss ct decap (fun _ => false) rnd mr).success = true ∧
    (run_bb84_kem bits bases ss ct decap (fun _ => false) rnd mr).delivered = bits.length ∧
    (run_bb84_kem bits bases ss ct decap (fun _ => false) rnd mr).final.measurements = bits := by
  have hrec : (sessionOf bits bases ss ct decap (fun _ => false) rnd mr).recBases
      = (sessionOf bits bases ss ct decap (fun _ => false) rnd mr).bases :=
    sessionOf_recBases bits bases ss ct decap (fun _ => false) rnd mr hdec hblen
  obtain ⟨lg', aw', sc', hout⟩ :=
    outer_clean (sessionOf bits bases ss ct decap (fun _ => false) rnd mr) hrec
      (fun k => rfl) hmr bits.length 0 [] 0 0 (Nat.zero_add _)
  have hfin : (run_bb84_kem bits bases ss ct decap (fun _ => false) rnd mr).final
      = ⟨bits.length, bits.length, [], [], [], bits, List.range bits.length,
         lg', aw', sc', false⟩ := by
    rw [run_final_eq]
    exact hout
  have hsucc : (run_bb84_kem bits bases ss ct decap (fun _ => false) rnd mr).success
      = (bits == (run_bb84_kem bits bases ss ct decap (fun _ => false) rnd mr).final.measurements) :=
    rfl
  have hdel : (run_bb84_kem bits bases ss ct decap (fun _ => false) rnd mr).delivered
      = (run_bb84_kem bits bases ss ct decap (fun _ => false) rnd mr).final.measurements.length :=
    rfl
  refine ⟨?_, ?_, ?_⟩
  · rw [hsucc, hfin]
    simp
  · rw [hdel, hfin]
  · rw [hfin]

/-- Witness for C2 at a concrete three-bit zero-loss session. -/
theorem C2_witness :
    (run_bb84_kem [1, 0, 1] [QBasis.X, QBasis.Z, QBasis.X] [7] [9] (fun _ => [7])
      (fun _ => false) (fun _ => 0) 2).success = true ∧
    (run_bb84_kem [1, 0, 1] [QBasis.X, QBasis.Z, QBasis.X] [7] [9] (fun _ => [7])
      (fun _ => false) (fun _ => 0) 2).delivered = 3 ∧
    (run_bb84_kem [1, 0, 1] [QBasis.X, QBasis.Z, QBasis.X] [7] [9] (fun _ => [7])
      (fun _ => false) (fun _ => 0) 2).final.measurements = [1, 0, 1] :=
  C2_zero_loss [1, 0, 1] [QBasis.X, QBasis.Z, QBasis.X] [7] [9] (fun _ => [7])
    (fun _ => 0) 2 rfl (by decide) (by decide) (by decide) rfl

/-- C3: if the Initiator's attempt counter reaches `max_retries` at some
index `i` without a matching ACK (the session ends aborted with
`current_idx = i`), the Initiator performed no send of any kind for any
index beyond `i` — every logged tag/qubit send carries an index `≤ i`,
indices `> i` were never attempted at all, and index `i` itself was only
attempted within the pre-exhaustion budget (at most `max_retries` tag
sends and `max_retries` qubit sends). -/
theorem C3_abort_stops (bits : List Nat) (bases : List QBasis) (ss ct : List Nat)
    (decap : List Nat → List Nat) (drop : Nat → Bool) (rnd : Nat → Nat) (mr : Nat)
    (hab : (run_bb84_kem bits bases ss ct decap drop rnd mr).final.aborted = true) :
    (∀ e ∈ (run_bb84_kem bits bases ss ct decap drop rnd mr).final.log,
      SendEvent.idx e ≤ (run_bb84_kem bits bases ss ct decap drop rnd mr).final.currentIdx) ∧
    (run_bb84_kem bits bases ss ct decap drop rnd mr).final.log.count
      (SendEvent.tag ((run_bb84_kem bits bases ss ct decap drop rnd mr).final.currentIdx)) ≤ mr ∧
    (run_bb84_kem bits bases ss ct decap drop rnd mr).final.log.count
      (SendEvent.qubit ((run_bb84_kem bits bases ss ct decap drop rnd mr).final.currentIdx)) ≤ mr ∧
    (∀ j, (run_bb84_kem bits bases ss ct decap drop rnd mr).final.currentIdx < j →
      (run_bb84_kem bits bases ss ct decap drop rnd mr).final.log.count (SendEvent.tag j) = 0 ∧
      (run_bb84_kem bits bases ss ct decap drop rnd mr).final.log.count (SendEvent.qubit j) = 0) := by
  have hf := runFinal_facts bits bases ss ct decap drop rnd mr
  exact ⟨hf.2.1, hf.2.2.1, hf.2.2.2.1, hf.2.2.2.2.1⟩

/-- Witness for C3: a session that drops every qubit with `max_retries=1`
aborts at index 0; the theorem's bounds instantiated there. -/
theorem C3_witness :
    SendEvent.idx (SendEvent.tag 0)
      ≤ (run_bb84_kem [0] [QBasis.X] [1] [0] (fun _ => [1]) (fun _ => true)
          (fun _ => 0) 1).final.currentIdx ∧
    (run_bb84_kem [0] [QBasis.X] [1] [0] (fun _ => [1]) (fun _ => true)
      (fun _ => 0) 1).final.log.count
        (SendEvent.tag ((run_bb84_kem [0] [QBasis.X] [1] [0] (fun _ => [1]) (fun _ => true)
          (fun _ => 0) 1).final.currentIdx)) ≤ 1 ∧
    (run_bb84_kem [0] [QBasis.X] [1] [0] (fun _ => [1]) (fun _ => true)
      (fun _ => 0) 1).final.log.count (SendEvent.tag 5) = 0 := by
  have h := C3_abort_stops [0] [QBasis.X] [1] [0] (fun _ => [1]) (fun _ => true)
    (fun _ => 0) 1 (by decide)
  exact ⟨h.1 (SendEvent.tag 0) (by decide), h.2.1, (h.2.2.2 5 (by decide)).1⟩

/-- C4: the Responder measures each index at most once.  A tag different
from `expected_idx` leaves Bob's state untouched — the qubit and tag are
discarded silently and nothing (in particular no ACK) is sent; a tag equal
to `expected_idx` records exactly one measurement, queues an ACK carrying
`expected_idx`, and increments `expected_idx`.  Over any whole session the
indices Bob consumed are exactly `0, …, expected_idx - 1`, each at most
once. -/
theorem C4_at_most_once (P : Session) (st : SessState) (t : Nat) (q q' : Qubit)
    (bits : List Nat) (bases : List QBasis) (ss ct : List Nat)
    (decap : List Nat → List Nat) (drop : Nat → Bool) (rnd : Nat → Nat) (mr : Nat)
    (hne : t ≠ st.expectedIdx) :
    bobHandle P st t q = st ∧
    bobHandle P st st.expectedIdx q' = { st with
      measurements := st.measurements ++
        [measureQubit q' (P.recBases.getD st.expectedIdx QBasis.Z) (P.rnd st.measurements.length)],
      measuredIdxs := st.measuredIdxs ++ [st.expectedIdx],
      ackQueue := st.ackQueue ++ [st.expectedIdx],
      expectedIdx := st.expectedIdx + 1 } ∧
    (run_bb84_kem bits bases ss ct decap drop rnd mr).final.measuredIdxs
      = List.range (run_bb84_kem bits bases ss ct decap drop rnd mr).final.expectedIdx ∧
    (run_bb84_kem bits bases ss ct decap drop rnd mr).final.measuredIdxs.Nodup := by
  have hf := runFinal_facts bits bases ss ct decap drop rnd mr
  have hmi := hf.2.2.2.2.2.2.1
  refine ⟨?_, ?_, hmi, ?_⟩
  · unfold bobHandle
    rw [if_neg hne]
  · unfold bobHandle
    rw [if_pos rfl]
  · rw [hmi]
    exact List.nodup_range _

/-- Witness for C4: a mismatched tag (3 ≠ 0) is discarded at the initial
state, and a concrete full run consumes each index at most once. -/
theorem C4_witness :
    bobHandle ⟨[0], [QBasis.X], [QBasis.X], 1, fun _ => false, fun _ => 0⟩
        initState 3 ⟨0, QBasis.X⟩ = initState ∧
    (run_bb84_kem [1, 0] [QBasis.Z, QBasis.Z] [4] [6] (fun _ => [4]) (fun _ => false)
      (fun _ => 0) 2).final.measuredIdxs.Nodup := by
  have h := C4_at_most_once ⟨[0], [QBasis.X], [QBasis.X], 1, fun _ => false, fun _ => 0⟩
    initState 3 ⟨0, QBasis.X⟩ ⟨0, QBasis.X⟩ [1, 0] [QBasis.Z, QBasis.Z] [4] [6]
    (fun _ => [4]) (fun _ => false) (fun _ => 0) 2 (by decide)
  exact ⟨h.1, h.2.2.2⟩

/-- C5 (counterexample): the claim asserts that with `max_retries = 0` and
loss probability 1 "the very first send at index 0 is dropped" and "the
single ACK-wait times out" — i.e. at least one ACK-wait occurs.  In the
source, the inner loop guard `while attempts < max_retries` is false
immediately, so the concrete session below performs zero ACK-waits (and
zero sends): the claim as stated is false. -/
theorem C5_counterexample :
    ¬ (1 ≤ (run_bb84_kem [0] [QBasis.X] [1] [0] (fun _ => [1]) (fun _ => true)
        (fun _ => 0) 0).final.ackWaits) := by
  decide

/-- C5 (amended): with `max_retries = 0` and quantum loss probability 1,
the attempt loop at index 0 never executes — no send occurs and no
ACK-wait happens — retries are exhausted immediately, and the run returns
`success = false` with `delivered_count = 0` (a failed partial result, not
an exception). -/
theorem C5_amended_exhaustion (bits : List Nat) (bases : List QBasis) (ss ct : List Nat)
    (decap : List Nat → List Nat) (rnd : Nat → Nat) (hn : 1 ≤ bits.length) :
    (run_bb84_kem bits bases ss ct decap (fun _ => true) rnd 0).success = false ∧
    (run_bb84_kem bits bases ss ct decap (fun _ => true) rnd 0).delivered = 0 ∧
    (run_bb84_kem bits bases ss ct decap (fun _ => true) rnd 0).final.log = [] ∧
    (run_bb84_kem bits bases ss ct decap (fun _ => true) rnd 0).final.ackWaits = 0 ∧
    (run_bb84_kem bits bases ss ct decap (fun _ => true) rnd 0).final.aborted = true := by
  have h := run_mr0 bits bases ss ct decap (fun _ => true) rnd hn
  refine ⟨h.2.1, h.2.2, ?_, ?_, ?_⟩ <;> simp [h.1, initState]

/-- Witness for C5's amended statement at a concrete one-bit session. -/
theorem C5_witness :
    (run_bb84_kem [1] [QBasis.Z] [2] [3] (fun _ => [2]) (fun _ => true)
      (fun _ => 0) 0).success = false ∧
    (run_bb84_kem [1] [QBasis.Z] [2] [3] (fun _ => [2]) (fun _ => true)
      (fun _ => 0) 0).delivered = 0 ∧
    (run_bb84_kem [1] [QBasis.Z] [2] [3] (fun _ => [2]) (fun _ => true)
      (fun _ => 0) 0).final.log = [] ∧
    (run_bb84_kem [1] [QBasis.Z] [2] [3] (fun _ => [2]) (fun _ => true)
      (fun _ => 0) 0).final.ackWaits = 0 ∧
    (run_bb84_kem [1] [QBasis.Z] [2] [3] (fun _ => [2]) (fun _ => true)
      (fun _ => 0) 0).final.aborted = true :=
  C5_amended_exhaustion [1] [QBasis.Z] [2] [3] (fun _ => [2]) (fun _ => 0) (by decide)

/-- C6: keystream involution.  For every byte string `d` and secret `s` of
length ≥ 1, XOR-ing each byte with `s[i mod len(s)]` twice restores `d`;
consequently `Kyber.decrypt` inverts `Kyber.encrypt` whenever the
Responder's decapsulation returns the secret the Initiator
encapsulated. -/
theorem C6_keystream_involution (d s ct : List Nat) (decap : List Nat → List Nat)
    (hs : 1 ≤ s.length) (hdec : decap ct = s) :
    apply_keystream (apply_keystream d s) s = d ∧
    Kyber.decrypt decap (Kyber.encrypt s ct d).1 (Kyber.encrypt s ct d).2 = d := by
  constructor
  · exact apply_keystream_involution d s
  · simp only [Kyber.encrypt, Kyber.decrypt, hdec]
    exact apply_keystream_involution d s

/-- Witness for C6 at a concrete message and two-byte secret. -/
theorem C6_witness :
    apply_keystream (apply_keystream [1, 2, 3] [5, 6]) [5, 6] = [1, 2, 3] ∧
    Kyber.decrypt (fun _ => [5, 6]) (Kyber.encrypt [5, 6] [9] [1, 2, 3]).1
      (Kyber.encrypt [5, 6] [9] [1, 2, 3]).2 = [1, 2, 3] :=
  C6_keystream_involution [1, 2, 3] [5, 6] [9] (fun _ => [5, 6]) (by decide) rfl

/-- C7: the basis codec round-trips — for every basis sequence `b` with
`bit_count = b.length ≥ 1` (including lengths that are not multiples of
8), unpacking the packed bytes truncated to `bit_count` restores `b`. -/
theorem C7_codec_roundtrip (b : List QBasis) (hb : 1 ≤ b.length) :
    bytes_to_bases (bases_to_bytes b) b.length = b :=
  codec_roundtrip b

/-- Witness for C7 at a length-3 sequence (not a multiple of 8). -/
theorem C7_witness :
    bytes_to_bases (bases_to_bytes [QBasis.X, QBasis.Z, QBasis.X]) 3
      = [QBasis.X, QBasis.Z, QBasis.X] :=
  C7_codec_roundtrip [QBasis.X, QBasis.Z, QBasis.X] (by decide)

/-- C8 (counterexample): the claim maps the Diagonal basis (`'X'`, the one
the code applies H to) to bit 1; the code's `bases_to_bytes` maps it to 0:
packing the single basis `'X'` gives the byte 0, not the byte 128 the
claim's mapping requires. -/
theorem C8_counterexample : bases_to_bytes [QBasis.X] ≠ packC8claim [QBasis.X] := by
  decide

/-- C8 (amended): `bases_to_bytes` maps each basis choice to a single bit
with the Diagonal (`'X'`) basis mapped to 0 and the Rectilinear (`'Z'`)
basis mapped to 1, packs 8 such bits per byte most-significant-bit first,
and zero-pads the final byte when `bit_count` is not a multiple of 8:
reading the produced bytes back MSB-first spells out exactly those basis
bits followed by the zero padding, and `⌈bit_count/8⌉` bytes are
produced. -/
theorem C8_amended_pack (b : List QBasis) :
    ((bases_to_bytes b).map byteBits).flatten = specPackedBits b ∧
    (bases_to_bytes b).length = (b.length + 7) / 8 := by
  constructor
  · rw [bases_to_bytes_eq, List.map_map]
    have hcomp : (chunks8 (paddedBits b)).map (byteBits ∘ bitsToByte)
        = (chunks8 (paddedBits b)).map fun c => byteBits (bitsToByte c) := rfl
    rw [hcomp, flatten_chunks8 _ (paddedBits_length_mod b)]
    rfl
  · rw [bases_to_bytes_eq, List.length_map, chunks8_length _ (paddedBits_length_mod b),
      paddedBits_length]
    omega

/-- C9: monotonic indices.  Both indices start at 0; Bob's `expected_idx`
moves by zero or one per handled pair and never exceeds `num_bits`;
Alice's `current_idx` is untouched inside the retry loop, never decreases
across the outer loop, and at the end of any full session both indices
are at most `bit_count`. -/
theorem C9_monotonic_indices (P : Session) (st : SessState) (t : Nat) (q : Qubit)
    (f m : Nat) (bits : List Nat) (bases : List QBasis) (ss ct : List Nat)
    (decap : List Nat → List Nat) (drop : Nat → Bool) (rnd : Nat → Nat) (mr : Nat)
    (hexp : st.expectedIdx ≤ P.numBits) :
    initState.currentIdx = 0 ∧ initState.expectedIdx = 0 ∧
    (st.expectedIdx ≤ (bobHandle P st t q).expectedIdx ∧
      (bobHandle P st t q).expectedIdx ≤ st.expectedIdx + 1) ∧
    (bobHandle P st t q).currentIdx = st.currentIdx ∧
    (bobProcess P st).expectedIdx ≤ P.numBits ∧
    (attemptLoop P m st).1.currentIdx = st.currentIdx ∧
    st.currentIdx ≤ (outerLoop P f st).currentIdx ∧
    (run_bb84_kem bits bases ss ct decap drop rnd mr).final.currentIdx ≤ bits.length ∧
    (run_bb84_kem bits bases ss ct decap drop rnd mr).final.expectedIdx ≤ bits.length := by
  have hf := runFinal_facts bits bases ss ct decap drop rnd mr
  refine ⟨rfl, rfl, ?_, (bobHandle_keeps P st t q).1, bobProcess_exp_le P st hexp,
    (attemptLoop_facts P m st).1, outerLoop_mono P f st, hf.1, hf.2.2.2.2.2.1⟩
  rcases bobHandle_expected P st t q with he | he
  · rw [he]
    exact ⟨Nat.le_refl _, Nat.le_succ _⟩
  · rw [he]
    exact ⟨Nat.le_succ _, Nat.le_refl _⟩

/-- Witness for C9 at a concrete state, session and run. -/
theorem C9_witness :
    initState.currentIdx = 0 ∧ initState.expectedIdx = 0 ∧
    (bobHandle ⟨[0], [QBasis.X], [QBasis.X], 1, fun _ => false, fun _ => 0⟩ initState 0
      ⟨0, QBasis.X⟩).expectedIdx ≤ initState.expectedIdx + 1 ∧
    (run_bb84_kem [1, 0] [QBasis.Z, QBasis.X] [4] [6] (fun _ => [4]) (fun _ => false)
      (fun _ => 0) 2).final.currentIdx ≤ 2 ∧
    (run_bb84_kem [1, 0] [QBasis.Z, QBasis.X] [4] [6] (fun _ => [4]) (fun _ => false)
      (fun _ => 0) 2).final.expectedIdx ≤ 2 := by
  have h := C9_monotonic_indices ⟨[0], [QBasis.X], [QBasis.X], 1, fun _ => false, fun _ => 0⟩
    initState 0 ⟨0, QBasis.X⟩ 1 1 [1, 0] [QBasis.Z, QBasis.X] [4] [6] (fun _ => [4])
    (fun _ => false) (fun _ => 0) 2 (by decide)
  exact ⟨h.1, h.2.1, h.2.2.1.2, h.2.2.2.2.2.2.2.1, h.2.2.2.2.2.2.2.2⟩

/-- C10: with `max_retries = 0` the per-index attempt loop body never
executes (the retry loop returns immediately with no acknowledgement), so
regardless of the loss oracle no sequence tag and no qubit is ever sent,
no ACK-wait occurs, the Responder records no measurement, and the run
returns `success = false` with `delivered_count = 0`. -/
theorem C10_mr0_no_attempts (P : Session) (st : SessState)
    (bits : List Nat) (bases : List QBasis) (ss ct : List Nat)
    (decap : List Nat → List Nat) (drop : Nat → Bool) (rnd : Nat → Nat)
    (hmr : P.maxRetries = 0) (hn : 1 ≤ bits.length) :
    attemptLoop P P.maxRetries st = (st, false) ∧
    (run_bb84_kem bits bases ss ct decap drop rnd 0).final.log = [] ∧
    (run_bb84_kem bits bases ss ct decap drop rnd 0).final.ackWaits = 0 ∧
    (run_bb84_kem bits bases ss ct decap drop rnd 0).final.measurements = [] ∧
    (run_bb84_kem bits bases ss ct decap drop rnd 0).success = false ∧
    (run_bb84_kem bits bases ss ct decap drop rnd 0).delivered = 0 := by
  have h := run_mr0 bits bases ss ct decap drop rnd hn
  refine ⟨by rw [hmr]; rfl, ?_, ?_, ?_, h.2.1, h.2.2⟩ <;> simp [h.1, initState]

/-- Witness for C10 at a concrete session with a lossless channel:
even then nothing is sent and the run fails. -/
theorem C10_witness :
    attemptLoop ⟨[5], [QBasis.Z], [QBasis.Z], 0, fun _ => false, fun _ => 0⟩ 0 initState
      = (initState, false) ∧
    (run_bb84_kem [5] [QBasis.Z] [8] [2] (fun _ => [8]) (fun _ => false)
      (fun _ => 0) 0).final.log = [] ∧
    (run_bb84_kem [5] [QBasis.Z] [8] [2] (fun _ => [8]) (fun _ => false)
      (fun _ => 0) 0).success = false ∧
    (run_bb84_kem [5] [QBasis.Z] [8] [2] (fun _ => [8]) (fun _ => false)
      (fun _ => 0) 0).delivered = 0 := by
  have h := C10_mr0_no_attempts ⟨[5], [QBasis.Z], [QBasis.Z], 0, fun _ => false, fun _ => 0⟩
    initState [5] [QBasis.Z] [8] [2] (fun _ => [8]) (fun _ => false) (fun _ => 0)
    rfl (by decide)
  exact ⟨h.1, h.2.1, h.2.2.2.2.1, h.2.2.2.2.2⟩
